import Mathlib

/-!
Verification of the Vulkan renderer in `src/vp/src/vp.m.cpp` (jan-kelemen/vulkan-tutorial).

Shallow embedding: the pure decision logic of the renderer (memory type selection,
layout-transition case analysis, mip-chain arithmetic, vertex deduplication, queue
family search, file reading, the per-frame control flow and the swapchain recreation
protocol) is translated into executable Lean definitions, and the specification's
claims are proved about those definitions.
-/

namespace VP

/-! ## `find_memory_type` (vp.m.cpp:388-406)

The C++ loops `for (i = 0; i < memory_properties.memoryTypeCount; i++)` and returns
the first `i` with `(type_filter & (1 << i))` nonzero and
`(memoryTypes[i].propertyFlags & properties) == properties`; if the loop completes it
throws `"failed to find suitable memory type!"`.  Bitmasks are modelled as `Nat` with
`Nat.testBit` / `Nat.land`; the throw is modelled as `none`. -/

structure MemoryType where
  propertyFlags : Nat
  deriving DecidableEq, Repr

/-- The loop condition of `find_memory_type` at index `i`:
`(type_filter & (1 << i)) && (memoryTypes[i].propertyFlags & properties) == properties`. -/
def suitableMemoryType (memoryTypes : List MemoryType) (type_filter properties : Nat)
    (i : Nat) : Bool :=
  type_filter.testBit i &&
    Nat.land (memoryTypes.getD i ⟨0⟩).propertyFlags properties == properties

/-- The `for` loop of `find_memory_type`: try index `i`, then `i+1`, ...,
for `fuel` remaining iterations. -/
def findFrom (p : Nat → Bool) : Nat → Nat → Option Nat
  | _, 0 => none
  | i, fuel + 1 => if p i then some i else findFrom p (i + 1) fuel

def find_memory_type (memoryTypes : List MemoryType) (type_filter properties : Nat) :
    Option Nat :=
  findFrom (suitableMemoryType memoryTypes type_filter properties) 0 memoryTypes.length

theorem findFrom_some {p : Nat → Bool} :
    ∀ (fuel i j : Nat), findFrom p i fuel = some j →
      i ≤ j ∧ j < i + fuel ∧ p j = true ∧ ∀ m, i ≤ m → m < j → p m = false := by
  intro fuel
  induction fuel with
  | zero => intro i j h; simp [findFrom] at h
  | succ n ih =>
    intro i j h
    simp only [findFrom] at h
    by_cases hp : p i
    · simp [hp] at h
      subst h
      exact ⟨le_refl i, by omega, hp, fun m h1 h2 => absurd h1 (by omega)⟩
    · simp [hp] at h
      obtain ⟨h1, h2, h3, h4⟩ := ih (i + 1) j h
      refine ⟨by omega, by omega, h3, fun m hm1 hm2 => ?_⟩
      rcases Nat.eq_or_lt_of_le hm1 with heq | hlt
      · simpa [← heq] using hp
      · exact h4 m hlt hm2

theorem findFrom_none {p : Nat → Bool} :
    ∀ (fuel i : Nat), findFrom p i fuel = none →
      ∀ j, i ≤ j → j < i + fuel → p j = false := by
  intro fuel
  induction fuel with
  | zero => intro i _ j h1 h2; omega
  | succ n ih =>
    intro i h j h1 h2
    simp only [findFrom] at h
    by_cases hp : p i
    · simp [hp] at h
    · simp [hp] at h
      rcases Nat.eq_or_lt_of_le h1 with heq | hlt
      · simpa [← heq] using hp
      · exact ih (i + 1) h j hlt (by omega)

/-- Index `i` is a valid answer for `find_memory_type`: it is in range, bit `i` of the
type filter is set, and the type's property flags contain all requested flags. -/
def memoryTypeOK (memoryTypes : List MemoryType) (type_filter properties : Nat)
    (i : Nat) : Prop :=
  i < memoryTypes.length ∧
    suitableMemoryType memoryTypes type_filter properties i = true

instance (mts : List MemoryType) (tf props i : Nat) :
    Decidable (memoryTypeOK mts tf props i) := by
  unfold memoryTypeOK; infer_instance

/-- C1: `find_memory_type` returns the smallest type index `i` such that bit `i` of
the hardware type filter is set and the type's property flags contain all requested
flags; when no index satisfies both conditions it throws (returns `none`, modelling
the `std::runtime_error`) rather than returning an index silently. -/
theorem find_memory_type_correct (memoryTypes : List MemoryType)
    (type_filter properties : Nat) :
    (∀ i, find_memory_type memoryTypes type_filter properties = some i →
      memoryTypeOK memoryTypes type_filter properties i ∧
        ∀ j, j < i → ¬ memoryTypeOK memoryTypes type_filter properties j) ∧
    (find_memory_type memoryTypes type_filter properties = none ↔
      ∀ i, ¬ memoryTypeOK memoryTypes type_filter properties i) := by
  constructor
  · intro i h
    obtain ⟨_, hlt, hp, hmin⟩ := findFrom_some _ 0 i h
    refine ⟨⟨by omega, hp⟩, fun j hj hok => ?_⟩
    have := hmin j (Nat.zero_le j) hj
    rw [hok.2] at this
    exact Bool.true_eq_false.mp this
  · constructor
    · intro h i hok
      obtain ⟨hi, hs⟩ := hok
      have := findFrom_none _ 0 h i (Nat.zero_le i) (by omega)
      rw [hs] at this
      exact Bool.true_eq_false.mp this
    · intro h
      cases hf : find_memory_type memoryTypes type_filter properties with
      | none => rfl
      | some i =>
        obtain ⟨_, hlt, hp, _⟩ := findFrom_some _ 0 i hf
        exact absurd ⟨by omega, hp⟩ (h i)

/-- Witness for C1 on a concrete memory-property table: with types whose flags are
`[0b000, 0b001, 0b111]`, a type filter admitting all indices and requested
properties `0b001`, the selected index 1 is valid and index 0 is not. -/
theorem find_memory_type_correct_witness :
    memoryTypeOK [⟨0⟩, ⟨1⟩, ⟨7⟩] 7 1 1 ∧ ¬ memoryTypeOK [⟨0⟩, ⟨1⟩, ⟨7⟩] 7 1 0 := by
  have h := (find_memory_type_correct [⟨0⟩, ⟨1⟩, ⟨7⟩] 7 1).1 1 (by decide)
  exact ⟨h.1, h.2 0 (by decide)⟩

/-! ## `transition_image_layout` (vp.m.cpp:672-762)

The function records a single-time command buffer with one `vkCmdPipelineBarrier`.
The access/stage masks come from a three-way `if` chain over the
`(old_layout, new_layout)` pair; any other pair throws
`std::invalid_argument{"unsupported layout transition!"}` before the barrier is
recorded.  Layouts are modelled as an inductive type covering the layouts this
program mentions; mask constants carry the numeric values of the Vulkan headers. -/

inductive VkImageLayout where
  | undefined
  | transferDstOptimal
  | transferSrcOptimal
  | shaderReadOnlyOptimal
  | depthStencilAttachmentOptimal
  | colorAttachmentOptimal
  | presentSrcKHR
  deriving DecidableEq, Repr

def VK_ACCESS_TRANSFER_WRITE_BIT : Nat := 0x00001000
def VK_ACCESS_TRANSFER_READ_BIT : Nat := 0x00000800
def VK_ACCESS_SHADER_READ_BIT : Nat := 0x00000020
def VK_ACCESS_DEPTH_STENCIL_ATTACHMENT_READ_BIT : Nat := 0x00000200
def VK_ACCESS_DEPTH_STENCIL_ATTACHMENT_WRITE_BIT : Nat := 0x00000400
def VK_PIPELINE_STAGE_TOP_OF_PIPE_BIT : Nat := 0x00000001
def VK_PIPELINE_STAGE_TRANSFER_BIT : Nat := 0x00001000
def VK_PIPELINE_STAGE_FRAGMENT_SHADER_BIT : Nat := 0x00000080
def VK_PIPELINE_STAGE_EARLY_FRAGMENT_TESTS_BIT : Nat := 0x00000100

/-- The data of the one image memory barrier `transition_image_layout` records,
together with the source/destination stages of the `vkCmdPipelineBarrier` call. -/
structure BarrierCmd where
  oldLayout : VkImageLayout
  newLayout : VkImageLayout
  srcAccessMask : Nat
  dstAccessMask : Nat
  sourceStage : Nat
  destinationStage : Nat
  deriving DecidableEq, Repr

/-- `transition_image_layout`: the list of barrier commands recorded into the
single-time command buffer, or the exception text.  The `else` branch throws before
`vkCmdPipelineBarrier` runs, so the error case records no barrier. -/
def transition_image_layout (old_layout new_layout : VkImageLayout) :
    Except String (List BarrierCmd) :=
  if old_layout = .undefined ∧ new_layout = .transferDstOptimal then
    .ok [{ oldLayout := old_layout, newLayout := new_layout,
           srcAccessMask := 0, dstAccessMask := VK_ACCESS_TRANSFER_WRITE_BIT,
           sourceStage := VK_PIPELINE_STAGE_TOP_OF_PIPE_BIT,
           destinationStage := VK_PIPELINE_STAGE_TRANSFER_BIT }]
  else if old_layout = .transferDstOptimal ∧ new_layout = .shaderReadOnlyOptimal then
    .ok [{ oldLayout := old_layout, newLayout := new_layout,
           srcAccessMask := VK_ACCESS_TRANSFER_WRITE_BIT,
           dstAccessMask := VK_ACCESS_SHADER_READ_BIT,
           sourceStage := VK_PIPELINE_STAGE_TRANSFER_BIT,
           destinationStage := VK_PIPELINE_STAGE_FRAGMENT_SHADER_BIT }]
  else if old_layout = .undefined ∧ new_layout = .depthStencilAttachmentOptimal then
    .ok [{ oldLayout := old_layout, newLayout := new_layout,
           srcAccessMask := 0,
           dstAccessMask := Nat.lor VK_ACCESS_DEPTH_STENCIL_ATTACHMENT_READ_BIT
             VK_ACCESS_DEPTH_STENCIL_ATTACHMENT_WRITE_BIT,
           sourceStage := VK_PIPELINE_STAGE_TOP_OF_PIPE_BIT,
           destinationStage := VK_PIPELINE_STAGE_EARLY_FRAGMENT_TESTS_BIT }]
  else
    .error "unsupported layout transition!"

/-- C5: the layout transition succeeds exactly on the three pairs
undefined→transfer-destination, transfer-destination→shader-read-only and
undefined→depth-stencil-attachment; every other pair yields the
"unsupported layout transition!" error, with no barrier recorded. -/
theorem transition_image_layout_cases (old_layout new_layout : VkImageLayout) :
    ((∃ cmds, transition_image_layout old_layout new_layout = .ok cmds) ↔
      ((old_layout = .undefined ∧ new_layout = .transferDstOptimal) ∨
       (old_layout = .transferDstOptimal ∧ new_layout = .shaderReadOnlyOptimal) ∨
       (old_layout = .undefined ∧ new_layout = .depthStencilAttachmentOptimal))) ∧
    (¬ ((old_layout = .undefined ∧ new_layout = .transferDstOptimal) ∨
        (old_layout = .transferDstOptimal ∧ new_layout = .shaderReadOnlyOptimal) ∨
        (old_layout = .undefined ∧ new_layout = .depthStencilAttachmentOptimal)) →
      transition_image_layout old_layout new_layout =
        .error "unsupported layout transition!") := by
  cases old_layout <;> cases new_layout <;>
    simp [transition_image_layout]

/-- Witness for C5: a shader-read-only→transfer-destination request (not one of the
three supported pairs) produces exactly the unsupported-transition error. -/
theorem transition_image_layout_cases_witness :
    transition_image_layout .shaderReadOnlyOptimal .transferDstOptimal =
      .error "unsupported layout transition!" :=
  (transition_image_layout_cases .shaderReadOnlyOptimal .transferDstOptimal).2
    (by simp)

/-! ## `read_file` (vp.m.cpp:48-65)

`read_file` opens the file with `ate | binary`; if the stream is not open it throws
`"failed to open file!"`.  Otherwise `tellg()` at end-of-file gives the byte count,
a buffer of exactly that size is allocated, the stream is rewound to 0 and the whole
buffer is read.  A file is modelled as either unreadable (open fails) or a byte
list; for a readable file the function returns the entire contents — including an
empty buffer for a zero-length file, which raises no error. -/

inductive FileOpen where
  | unreadable
  | contents (bytes : List Nat)
  deriving DecidableEq, Repr

def read_file : FileOpen → Except String (List Nat)
  | .unreadable => .error "failed to open file!"
  | .contents bytes => .ok bytes

/-- `main` catches the propagated exception and returns `EXIT_FAILURE`;
a clean run returns `EXIT_SUCCESS` (vp.m.cpp:2480-2498). -/
def mainExitCode : Except String Unit → Nat
  | .ok _ => 0
  | .error _ => 1

/-- Counterexample to C9: a readable zero-length file is not a fatal error — the code
returns an empty buffer, contradicting the claim that zero length raises an
exception. -/
theorem read_file_zero_length_not_fatal :
    read_file (.contents []) = .ok [] ∧
      ∀ e, read_file (.contents []) ≠ .error e := by
  exact ⟨rfl, fun e h => by simp [read_file] at h⟩

/-- C9 (amended): reading a shader binary returns the entire file contents in one
read (no partial read); an unreadable file raises an exception whose propagation
out of `run` makes the process exit with a failure code; a readable zero-length
file yields an empty buffer without error. -/
theorem read_file_amended :
    (∀ bytes, read_file (.contents bytes) = .ok bytes) ∧
    read_file .unreadable = .error "failed to open file!" ∧
    (∀ e, mainExitCode (.error e) ≠ 0) ∧
    read_file (.contents []) = .ok [] := by
  exact ⟨fun _ => rfl, rfl, fun e => by simp [mainExitCode], rfl⟩

/-! ## Mip level count and mipmap generation
(vp.m.cpp:1730-1734 `create_texture_image`, 764-891 `generate_mipmaps`)

`create_texture_image` computes
`mip_levels_ = floor(log2(max(width, height))) + 1`; on naturals `floor ∘ log2` is
`Nat.log2` (the C++ computes it through `double`, exact on these magnitudes).
`generate_mipmaps` loops `for (i = 1; i != mip_levels; ++i)` blitting level `i-1`
into level `i` with destination extent
`(mip_width > 1 ? mip_width / 2 : 1, mip_height > 1 ? mip_height / 2 : 1)`
and then halving each loop variable only while it exceeds 1. -/

def mip_levels (width height : Nat) : Nat :=
  Nat.log2 (max width height) + 1

/-- One mip-dimension step: halve while above 1, clamp at 1. -/
def halfClamp (d : Nat) : Nat := if 1 < d then d / 2 else 1

/-- The loop body of `generate_mipmaps`: emits the blit destination extent for each
of the remaining `steps` levels while updating the `mip_width`/`mip_height` loop
variables exactly as the C++ does. -/
def genMipsLoop : Nat → Nat → Nat → List (Nat × Nat)
  | _, _, 0 => []
  | mip_width, mip_height, steps + 1 =>
      (if 1 < mip_width then mip_width / 2 else 1,
       if 1 < mip_height then mip_height / 2 else 1) ::
        genMipsLoop (if 1 < mip_width then mip_width / 2 else mip_width)
          (if 1 < mip_height then mip_height / 2 else mip_height) steps

/-- The extents of all mip levels of a `width × height` texture with `levels` mip
levels: level 0 is the full image, levels `1 .. levels-1` are produced by the
`generate_mipmaps` loop. -/
def generate_mipmaps_dims (width height levels : Nat) : List (Nat × Nat) :=
  (width, height) :: genMipsLoop width height (levels - 1)

theorem genMipsLoop_eq_iterate :
    ∀ (steps mw mh : Nat), 1 ≤ mw → 1 ≤ mh →
      genMipsLoop mw mh steps =
        (List.range steps).map (fun k => (halfClamp^[k + 1] mw, halfClamp^[k + 1] mh)) := by
  intro steps
  induction steps with
  | zero => intro mw mh _ _; rfl
  | succ n ih =>
    intro mw mh hw hh
    have hupd : ∀ d : Nat, 1 ≤ d → (if 1 < d then d / 2 else d) = halfClamp d := by
      intro d hd
      by_cases h1 : 1 < d
      · simp [halfClamp, h1]
      · have : d = 1 := by omega
        simp [halfClamp, this]
    have hcw : 1 ≤ halfClamp mw := by
      unfold halfClamp; split <;> omega
    have hch : 1 ≤ halfClamp mh := by
      unfold halfClamp; split <;> omega
    have hstep : genMipsLoop mw mh (n + 1) =
        (halfClamp mw, halfClamp mh) :: genMipsLoop (halfClamp mw) (halfClamp mh) n := by
      simp only [genMipsLoop, hupd mw hw, hupd mh hh]
      rfl
    rw [hstep, ih (halfClamp mw) (halfClamp mh) hcw hch, List.range_succ_eq_map,
      List.map_cons, List.map_map]
    refine congrArg₂ _ rfl ?_
    apply List.map_congr_left
    intro k _
    simp [Function.comp, Function.iterate_succ_apply]

theorem generate_mipmaps_dims_get (width height levels : Nat)
    (hw : 1 ≤ width) (hh : 1 ≤ height) :
    ∀ i, i < levels →
      (generate_mipmaps_dims width height levels)[i]? =
        some (halfClamp^[i] width, halfClamp^[i] height) := by
  intro i hi
  unfold generate_mipmaps_dims
  rw [genMipsLoop_eq_iterate (levels - 1) width height hw hh]
  cases i with
  | zero => simp
  | succ k =>
    have hk : k < levels - 1 := by omega
    simp [List.getElem?_map, List.getElem?_range hk]

/-- C4: for a `W × H` texture with `W, H ≥ 1`, the computed mip level count is
`floor(log2(max(W, H))) + 1`; the mip chain has exactly that many levels, level 0
is the full extent, and every level `i+1` has width and height obtained from
level `i` by halving a dimension that exceeds 1 and clamping it to 1 otherwise;
a 512×256 texture yields exactly 10 levels. -/
theorem mip_chain_correct (W H : Nat) (hW : 1 ≤ W) (hH : 1 ≤ H) :
    mip_levels W H = Nat.log2 (max W H) + 1 ∧
    (generate_mipmaps_dims W H (mip_levels W H)).length = mip_levels W H ∧
    (generate_mipmaps_dims W H (mip_levels W H))[0]? = some (W, H) ∧
    (∀ i w h w' h', i + 1 < mip_levels W H →
      (generate_mipmaps_dims W H (mip_levels W H))[i]? = some (w, h) →
      (generate_mipmaps_dims W H (mip_levels W H))[i + 1]? = some (w', h') →
      w' = (if 1 < w then w / 2 else 1) ∧ h' = (if 1 < h then h / 2 else 1)) ∧
    mip_levels 512 256 = 10 := by
  have hlen : (generate_mipmaps_dims W H (mip_levels W H)).length = mip_levels W H := by
    unfold generate_mipmaps_dims
    rw [genMipsLoop_eq_iterate (mip_levels W H - 1) W H hW hH]
    simp [mip_levels]
  refine ⟨rfl, hlen, ?_, ?_, ?_⟩
  · exact generate_mipmaps_dims_get W H (mip_levels W H) hW hH 0 (by simp [mip_levels])
  · intro i w h w' h' hi hget hget'
    rw [generate_mipmaps_dims_get W H (mip_levels W H) hW hH i (by omega)] at hget
    rw [generate_mipmaps_dims_get W H (mip_levels W H) hW hH (i + 1) hi] at hget'
    obtain ⟨rfl, rfl⟩ := Prod.mk.injEq .. ▸ Option.some.injEq .. ▸ hget
    have := Option.some.inj hget'
    rw [Function.iterate_succ_apply', Function.iterate_succ_apply'] at this
    exact ⟨(congrArg Prod.fst this).symm, (congrArg Prod.snd this).symm⟩
  · show Nat.log2 (max 512 256) + 1 = 10
    norm_num [Nat.log2]

/-- Witness for C4 at the textured-model dimensions: a 512×256 texture has 10 mip
levels, the chain starts at (512, 256), and level 1 is (256, 128). -/
theorem mip_chain_correct_witness :
    mip_levels 512 256 = 10 ∧
      (generate_mipmaps_dims 512 256 (mip_levels 512 256))[0]? = some (512, 256) := by
  have h := mip_chain_correct 512 256 (by decide) (by decide)
  exact ⟨h.2.2.2.2, h.2.2.1⟩

/-! ## Vertex deduplication in `load_model` (vp.m.cpp:1842-1888)

For each face index the loop builds a `vertex` (position, color, texture-coordinate)
and runs
`unique_vertices.try_emplace(vert, vertices_.size())`: if the vertex is new it is
inserted into the map with value `vertices_.size()` and pushed onto `vertices_`;
either way `it->second` is appended to `indices_`.  The attribute tuple is modelled
as an arbitrary type `V` with decidable equality (the C++ compares all fields with
the defaulted `operator==`), and the `unordered_map` as a function `V → Option Nat`. -/

structure LoadState (V : Type) where
  unique_vertices : V → Option Nat
  vertices : List V
  indices : List Nat

def initLoadState (V : Type) : LoadState V :=
  { unique_vertices := fun _ => none, vertices := [], indices := [] }

/-- The body of the index loop of `load_model` for one attribute tuple `v`. -/
def load_model_step {V : Type} [DecidableEq V] (s : LoadState V) (v : V) : LoadState V :=
  match s.unique_vertices v with
  | some idx => { s with indices := s.indices ++ [idx] }
  | none =>
      { unique_vertices := fun u => if u = v then some s.vertices.length
          else s.unique_vertices u,
        vertices := s.vertices ++ [v],
        indices := s.indices ++ [s.vertices.length] }

/-- `load_model` over the flattened stream of attribute tuples of all shapes. -/
def load_model {V : Type} [DecidableEq V] (input : List V) : LoadState V :=
  input.foldl load_model_step (initLoadState V)

/-- Invariant tying the three components of the loader state together: the map sends
a tuple to an index exactly when the vertex list holds that tuple at that index,
the vertex list has no duplicates, and every emitted index is in range. -/
def LoadInv {V : Type} (s : LoadState V) : Prop :=
  (∀ v i, s.unique_vertices v = some i ↔ s.vertices[i]? = some v) ∧
  s.vertices.Nodup ∧
  (∀ i ∈ s.indices, i < s.vertices.length)

theorem loadInv_init (V : Type) : LoadInv (initLoadState V) := by
  refine ⟨fun v i => ?_, List.nodup_nil, fun i h => absurd h (List.not_mem_nil i)⟩
  simp [initLoadState]

theorem loadInv_step {V : Type} [DecidableEq V] (s : LoadState V) (v : V)
    (hs : LoadInv s) : LoadInv (load_model_step s v) := by
  obtain ⟨hmap, hnodup, hrange⟩ := hs
  have hnotmem : s.unique_vertices v = none → v ∉ s.vertices := by
    intro hv hmem
    obtain ⟨i, hi, hget⟩ := List.getElem_of_mem hmem
    have : s.unique_vertices v = some i :=
      (hmap v i).mpr (List.getElem?_eq_some_iff.mpr ⟨hi, hget⟩)
    rw [hv] at this
    exact Option.noConfusion this
  unfold load_model_step
  cases hv : s.unique_vertices v with
  | some idx =>
    refine ⟨hmap, hnodup, fun i hi => ?_⟩
    simp only [List.mem_append, List.mem_singleton] at hi
    rcases hi with hi | rfl
    · exact hrange i hi
    · exact List.getElem?_eq_some_iff.mp ((hmap v i).mp hv) |>.1
  | none =>
    refine ⟨?_, ?_, ?_⟩
    · intro u i
      simp only
      by_cases huv : u = v
      · subst huv
        simp only [if_pos rfl]
        constructor
        · intro h
          obtain rfl := Option.some.inj h
          rw [List.getElem?_append_right (le_refl _)]
          simp
        · intro h
          rcases Nat.lt_trichotomy i s.vertices.length with hlt | heq | hgt
          · rw [List.getElem?_append_left hlt] at h
            exact absurd ((hmap u i).mpr h) (by rw [hv]; exact Option.noConfusion)
          · rw [heq]; simp
          · rw [List.getElem?_eq_none_iff.mpr (by simp; omega)] at h
            exact Option.noConfusion h
      · rw [if_neg huv]
        constructor
        · intro h
          have hgu := (hmap u i).mp h
          have hlt := (List.getElem?_eq_some_iff.mp hgu).1
          rw [List.getElem?_append_left hlt]
          exact hgu
        · intro h
          rcases Nat.lt_trichotomy i s.vertices.length with hlt | heq | hgt
          · rw [List.getElem?_append_left hlt] at h
            exact (hmap u i).mpr h
          · subst heq
            rw [List.getElem?_append_right (le_refl _)] at h
            simp at h
            exact absurd h.symm huv
          · rw [List.getElem?_eq_none_iff.mpr (by simp; omega)] at h
            exact Option.noConfusion h
    · exact List.Nodup.append hnodup (List.nodup_singleton v)
        (List.disjoint_singleton.mpr (hnotmem hv))
    · intro i hi
      simp only [List.mem_append, List.mem_singleton] at hi
      simp only [List.length_append, List.length_singleton]
      rcases hi with hi | rfl
      · have := hrange i hi; omega
      · omega

theorem loadInv_load_model {V : Type} [DecidableEq V] (input : List V) :
    LoadInv (load_model input) := by
  induction input using List.reverseRecOn with
  | nil => exact loadInv_init V
  | append_singleton xs v ih =>
    rw [load_model, List.foldl_append]
    exact loadInv_step _ v ih

theorem load_model_append_singleton {V : Type} [DecidableEq V] (xs : List V) (v : V) :
    load_model (xs ++ [v]) = load_model_step (load_model xs) v := by
  rw [load_model, List.foldl_append]
  rfl

/-- A tuple that has been processed is in the deduplicated vertex list. -/
theorem mem_vertices_of_mem_input {V : Type} [DecidableEq V] (input : List V) (v : V)
    (hv : v ∈ input) : v ∈ (load_model input).vertices := by
  induction input using List.reverseRecOn with
  | nil => exact absurd hv (List.not_mem_nil v)
  | append_singleton xs u ih =>
    rw [load_model_append_singleton]
    have hkeep : ∀ w, w ∈ (load_model xs).vertices →
        w ∈ (load_model_step (load_model xs) u).vertices := by
      intro w hw
      unfold load_model_step
      cases (load_model xs).unique_vertices u with
      | some idx => exact hw
      | none => exact List.mem_append_left _ hw
    rcases List.mem_append.mp hv with hv | hv
    · exact hkeep v (ih hv)
    · rw [List.mem_singleton] at hv
      subst hv
      unfold load_model_step
      cases hu : (load_model xs).unique_vertices v with
      | some idx =>
        have := ((loadInv_load_model xs).1 v idx).mp hu
        exact List.getElem?_mem this
      | none => exact List.mem_append_right _ (List.mem_singleton_self v)

/-- In a duplicate-free vertex list, an index holding `v` is `v`'s first position. -/
theorem nodup_getElem?_indexOf {V : Type} [DecidableEq V] (l : List V) (v : V) (i : Nat)
    (hnodup : l.Nodup) (h : l[i]? = some v) : i = l.indexOf v := by
  obtain ⟨hi, hget⟩ := List.getElem?_eq_some_iff.mp h
  have hmem : v ∈ l := hget ▸ List.getElem_mem hi
  have hlt : l.indexOf v < l.length := List.indexOf_lt_length.mpr hmem
  have : l[i] = l[l.indexOf v] := by rw [hget, List.getElem_indexOf hlt]
  exact (hnodup.getElem_inj_iff).mp this

/-- C6: vertex deduplication is idempotent.  Processing a tuple `v` that already
occurred in the stream leaves the vertex list unchanged, appends to the index list
exactly the index of `v`'s first occurrence in the deduplicated vertex list, and
every emitted index stays strictly below the final vertex-list length. -/
theorem vertex_dedup_idempotent {V : Type} [DecidableEq V] (xs : List V) (v : V)
    (hv : v ∈ xs) :
    (load_model (xs ++ [v])).vertices = (load_model xs).vertices ∧
    (load_model (xs ++ [v])).indices =
      (load_model xs).indices ++ [(load_model xs).vertices.indexOf v] ∧
    (∀ i ∈ (load_model (xs ++ [v])).indices,
      i < (load_model (xs ++ [v])).vertices.length) := by
  obtain ⟨hmap, hnodup, hrange⟩ := loadInv_load_model (V := V) xs
  have hmem : v ∈ (load_model xs).vertices := mem_vertices_of_mem_input xs v hv
  obtain ⟨j, hj, hget⟩ := List.getElem_of_mem hmem
  have hsome : (load_model xs).unique_vertices v = some j :=
    (hmap v j).mpr (List.getElem?_eq_some_iff.mpr ⟨hj, hget⟩)
  have hjdx : j = (load_model xs).vertices.indexOf v :=
    nodup_getElem?_indexOf _ v j hnodup (List.getElem?_eq_some_iff.mpr ⟨hj, hget⟩)
  have hstep : load_model (xs ++ [v]) = load_model_step (load_model xs) v :=
    load_model_append_singleton xs v
  have hred : load_model_step (load_model xs) v =
      { load_model xs with indices := (load_model xs).indices ++ [j] } := by
    unfold load_model_step
    rw [hsome]
  refine ⟨?_, ?_, ?_⟩
  · rw [hstep, hred]
  · rw [hstep, hred, ← hjdx]
  · have := (loadInv_load_model (V := V) (xs ++ [v])).2.2
    exact this

/-- Witness for C6 on the stream `[a, b, a]` over a two-point attribute type: the
third tuple repeats the first, the vertex list stays `[a, b]`, the emitted index is
0 (the first occurrence of `a`), and all indices are in range. -/
theorem vertex_dedup_idempotent_witness :
    (load_model ([false, true] ++ [false])).vertices =
        (load_model [false, true]).vertices ∧
    (load_model ([false, true] ++ [false])).indices =
      (load_model [false, true]).indices ++
        [(load_model [false, true]).vertices.indexOf false] ∧
    (∀ i ∈ (load_model ([false, true] ++ [false])).indices,
      i < (load_model ([false, true] ++ [false])).vertices.length) :=
  vertex_dedup_idempotent [false, true] false (by simp)

/-- C10: the deduplicated mesh reproduces the input stream: indexing the produced
vertex list by the produced index list, position by position, yields exactly the
original tuple stream (in particular both lists of indices and inputs have equal
length). -/
theorem vertex_dedup_preserves_mesh {V : Type} [DecidableEq V] (input : List V) :
    (load_model input).indices.length = input.length ∧
    (load_model input).indices.map (fun i => (load_model input).vertices[i]?) =
      input.map some := by
  induction input using List.reverseRecOn with
  | nil => exact ⟨rfl, rfl⟩
  | append_singleton xs v ih =>
    obtain ⟨hmap, hnodup, hrange⟩ := loadInv_load_model (V := V) xs
    rw [load_model_append_singleton]
    unfold load_model_step
    cases hv : (load_model xs).unique_vertices v with
    | some idx =>
      have hidx : (load_model xs).vertices[idx]? = some v := (hmap v idx).mp hv
      refine ⟨by simpa using ih.1, ?_⟩
      simp only [List.map_append, List.map_cons, List.map_nil, ih.2, hidx]
    | none =>
      refine ⟨by simpa using ih.1, ?_⟩
      simp only [List.map_append, List.map_cons, List.map_nil]
      have hkeep : (load_model xs).indices.map
          (fun i => ((load_model xs).vertices ++ [v])[i]?) =
          (load_model xs).indices.map (fun i => (load_model xs).vertices[i]?) := by
        apply List.map_congr_left
        intro i hi
        exact List.getElem?_append_left (hrange i hi)
      have hnew : ((load_model xs).vertices ++ [v])[(load_model xs).vertices.length]? =
          some v := by
        rw [List.getElem?_append_right (le_refl _)]
        simp
      rw [hkeep, ih.2, hnew]

/-! ## `find_queue_families` (vp.m.cpp:183-223)

The loop walks the queue families once with a counter `i`.  For each family it
assigns `indices.graphics_family = i` whenever the family has the graphics bit and
`indices.present_family = i` whenever the family supports presentation — with no
guard against overwriting an earlier value — and breaks as soon as both optionals
are engaged.  A queue family is modelled by its two relevant capabilities. -/

structure QueueFamily where
  graphicsBit : Bool
  presentSupport : Bool
  deriving DecidableEq, Repr

structure queue_family_indices where
  graphics_family : Option Nat
  present_family : Option Nat
  deriving DecidableEq, Repr

/-- The two conditional assignments of the loop body at index `i`. -/
def accStep (i : Nat) (acc : queue_family_indices) (qf : QueueFamily) :
    queue_family_indices :=
  let acc1 := if qf.graphicsBit then { acc with graphics_family := some i } else acc
  if qf.presentSupport then { acc1 with present_family := some i } else acc1

theorem accStep_graphics_family (i : Nat) (acc : queue_family_indices)
    (qf : QueueFamily) :
    (accStep i acc qf).graphics_family =
      if qf.graphicsBit then some i else acc.graphics_family := by
  unfold accStep
  by_cases hg : qf.graphicsBit <;> by_cases hp : qf.presentSupport <;> simp [hg, hp]

theorem accStep_present_family (i : Nat) (acc : queue_family_indices)
    (qf : QueueFamily) :
    (accStep i acc qf).present_family =
      if qf.presentSupport then some i else acc.present_family := by
  unfold accStep
  by_cases hg : qf.graphicsBit <;> by_cases hp : qf.presentSupport <;> simp [hg, hp]

/-- The loop of `find_queue_families`: process each family, break once both indices
are engaged. -/
def findQueueFamiliesGo : Nat → queue_family_indices → List QueueFamily →
    queue_family_indices
  | _, acc, [] => acc
  | i, acc, qf :: rest =>
      if (accStep i acc qf).graphics_family.isSome &&
          (accStep i acc qf).present_family.isSome then accStep i acc qf
      else findQueueFamiliesGo (i + 1) (accStep i acc qf) rest

def find_queue_families (queue_families : List QueueFamily) : queue_family_indices :=
  findQueueFamiliesGo 0 { graphics_family := none, present_family := none }
    queue_families

/-- The claim's reading of the search result: the index of the **first**
graphics-capable family. -/
def firstGraphicsIndex (queue_families : List QueueFamily) : Option Nat :=
  queue_families.findIdx? (·.graphicsBit)

/-- The claim's reading of the search result: the index of the **first**
present-capable family. -/
def firstPresentIndex (queue_families : List QueueFamily) : Option Nat :=
  queue_families.findIdx? (·.presentSupport)

/-- Counterexample to C7: with families `[graphics-only, graphics+present]` the
search returns graphics index 1, but the first graphics-capable index is 0 — the
loop overwrites the graphics index at every graphics-capable family until both
indices are found, so it does not record the first matching index. -/
theorem find_queue_families_not_first :
    (find_queue_families [⟨true, false⟩, ⟨true, true⟩]).graphics_family = some 1 ∧
    firstGraphicsIndex [⟨true, false⟩, ⟨true, true⟩] = some 0 ∧
    (find_queue_families [⟨true, false⟩, ⟨true, true⟩]).graphics_family ≠
      firstGraphicsIndex [⟨true, false⟩, ⟨true, true⟩] := by
  decide

theorem findQueueFamiliesGo_graphics_sound :
    ∀ (l : List QueueFamily) (i : Nat) (acc : queue_family_indices) (k : Nat),
      (findQueueFamiliesGo i acc l).graphics_family = some k →
      acc.graphics_family = some k ∨
        (i ≤ k ∧ ∃ qf, l[k - i]? = some qf ∧ qf.graphicsBit = true) := by
  intro l
  induction l with
  | nil => intro i acc k h; exact Or.inl h
  | cons qf rest ih =>
    intro i acc k h
    have hcase : ((if qf.graphicsBit then some i else acc.graphics_family) = some k) →
        acc.graphics_family = some k ∨
          (i ≤ k ∧ ∃ qf', (qf :: rest)[k - i]? = some qf' ∧ qf'.graphicsBit = true) := by
      intro h2
      by_cases hg : qf.graphicsBit
      · rw [if_pos hg] at h2
        obtain rfl := Option.some.inj h2
        right
        exact ⟨le_refl _, qf, by simp, hg⟩
      · rw [if_neg hg] at h2
        exact Or.inl h2
    unfold findQueueFamiliesGo at h
    split at h
    · exact hcase (by rw [← accStep_graphics_family]; exact h)
    · rcases ih (i + 1) (accStep i acc qf) k h with h1 | ⟨h1, qf', h2, h3⟩
      · exact hcase (by rw [← accStep_graphics_family]; exact h1)
      · right
        refine ⟨by omega, qf', ?_, h3⟩
        have hk : k - i = (k - (i + 1)) + 1 := by omega
        rw [hk, List.getElem?_cons_succ]
        exact h2

theorem findQueueFamiliesGo_present_sound :
    ∀ (l : List QueueFamily) (i : Nat) (acc : queue_family_indices) (k : Nat),
      (findQueueFamiliesGo i acc l).present_family = some k →
      acc.present_family = some k ∨
        (i ≤ k ∧ ∃ qf, l[k - i]? = some qf ∧ qf.presentSupport = true) := by
  intro l
  induction l with
  | nil => intro i acc k h; exact Or.inl h
  | cons qf rest ih =>
    intro i acc k h
    have hcase : ((if qf.presentSupport then some i else acc.present_family) = some k) →
        acc.present_family = some k ∨
          (i ≤ k ∧ ∃ qf', (qf :: rest)[k - i]? = some qf' ∧ qf'.presentSupport = true) := by
      intro h2
      by_cases hp : qf.presentSupport
      · rw [if_pos hp] at h2
        obtain rfl := Option.some.inj h2
        right
        exact ⟨le_refl _, qf, by simp, hp⟩
      · rw [if_neg hp] at h2
        exact Or.inl h2
    unfold findQueueFamiliesGo at h
    split at h
    · exact hcase (by rw [← accStep_present_family]; exact h)
    · rcases ih (i + 1) (accStep i acc qf) k h with h1 | ⟨h1, qf', h2, h3⟩
      · exact hcase (by rw [← accStep_present_family]; exact h1)
      · right
        refine ⟨by omega, qf', ?_, h3⟩
        have hk : k - i = (k - (i + 1)) + 1 := by omega
        rw [hk, List.getElem?_cons_succ]
        exact h2

theorem findQueueFamiliesGo_graphics_none :
    ∀ (l : List QueueFamily) (i : Nat) (acc : queue_family_indices),
      (findQueueFamiliesGo i acc l).graphics_family = none →
      acc.graphics_family = none ∧ ∀ qf ∈ l, qf.graphicsBit = false := by
  intro l
  induction l with
  | nil => intro i acc h; exact ⟨h, fun qf hq => absurd hq (List.not_mem_nil qf)⟩
  | cons qf rest ih =>
    intro i acc h
    unfold findQueueFamiliesGo at h
    split at h
    · next hc =>
      rw [h] at hc
      simp at hc
    · obtain ⟨h1, h2⟩ := ih (i + 1) (accStep i acc qf) h
      rw [accStep_graphics_family] at h1
      by_cases hg : qf.graphicsBit
      · rw [if_pos hg] at h1; exact Option.noConfusion h1
      · rw [if_neg hg] at h1
        refine ⟨h1, fun qf' hq => ?_⟩
        rcases List.mem_cons.mp hq with rfl | hq
        · exact Bool.eq_false_iff.mpr hg
        · exact h2 qf' hq

theorem findQueueFamiliesGo_present_none :
    ∀ (l : List QueueFamily) (i : Nat) (acc : queue_family_indices),
      (findQueueFamiliesGo i acc l).present_family = none →
      acc.present_family = none ∧ ∀ qf ∈ l, qf.presentSupport = false := by
  intro l
  induction l with
  | nil => intro i acc h; exact ⟨h, fun qf hq => absurd hq (List.not_mem_nil qf)⟩
  | cons qf rest ih =>
    intro i acc h
    unfold findQueueFamiliesGo at h
    split at h
    · next hc =>
      rw [h] at hc
      simp at hc
    · obtain ⟨h1, h2⟩ := ih (i + 1) (accStep i acc qf) h
      rw [accStep_present_family] at h1
      by_cases hp : qf.presentSupport
      · rw [if_pos hp] at h1; exact Option.noConfusion h1
      · rw [if_neg hp] at h1
        refine ⟨h1, fun qf' hq => ?_⟩
        rcases List.mem_cons.mp hq with rfl | hq
        · exact Bool.eq_false_iff.mpr hp
        · exact h2 qf' hq

theorem findQueueFamiliesGo_early_stop :
    ∀ (l₁ l₂ : List QueueFamily) (i : Nat) (acc : queue_family_indices),
      l₁ ≠ [] →
      ((∃ qf ∈ l₁, qf.graphicsBit = true) ∨ acc.graphics_family.isSome = true) →
      ((∃ qf ∈ l₁, qf.presentSupport = true) ∨ acc.present_family.isSome = true) →
      findQueueFamiliesGo i acc (l₁ ++ l₂) = findQueueFamiliesGo i acc l₁ := by
  intro l₁
  induction l₁ with
  | nil => intro l₂ i acc hne _ _; exact absurd rfl hne
  | cons qf rest ih =>
    intro l₂ i acc _ hg hp
    have hg2 : (∃ qf' ∈ rest, qf'.graphicsBit = true) ∨
        (accStep i acc qf).graphics_family.isSome = true := by
      rw [accStep_graphics_family]
      rcases hg with ⟨qf', hq, hcap⟩ | hs
      · rcases List.mem_cons.mp hq with rfl | hq
        · right; rw [if_pos hcap]; rfl
        · exact Or.inl ⟨qf', hq, hcap⟩
      · right
        by_cases hgb : qf.graphicsBit
        · rw [if_pos hgb]; rfl
        · rw [if_neg hgb]; exact hs
    have hp2 : (∃ qf' ∈ rest, qf'.presentSupport = true) ∨
        (accStep i acc qf).present_family.isSome = true := by
      rw [accStep_present_family]
      rcases hp with ⟨qf', hq, hcap⟩ | hs
      · rcases List.mem_cons.mp hq with rfl | hq
        · right; rw [if_pos hcap]; rfl
        · exact Or.inl ⟨qf', hq, hcap⟩
      · right
        by_cases hpb : qf.presentSupport
        · rw [if_pos hpb]; rfl
        · rw [if_neg hpb]; exact hs
    show findQueueFamiliesGo i acc (qf :: (rest ++ l₂)) = _
    unfold findQueueFamiliesGo
    split
    · rfl
    · next hc =>
      cases rest with
      | nil =>
        rcases hg2 with ⟨_, hq, _⟩ | hgs
        · exact absurd hq (List.not_mem_nil _)
        · rcases hp2 with ⟨_, hq, _⟩ | hps
          · exact absurd hq (List.not_mem_nil _)
          · rw [hgs, hps] at hc
            simp at hc
      | cons qf' rest' =>
        exact ih l₂ (i + 1) (accStep i acc qf) (by simp) hg2 hp2

/-- C7 (amended): the queue family search walks the families in a single pass,
records a graphics-capable index and a present-capable index independently of each
other (every returned index points at a family with the corresponding capability,
and an index is absent only when no family has that capability), and stops as soon
as both indices have been found: families beyond a prefix that already contains a
graphics-capable and a present-capable family never influence the result.  The
recorded index is the most recently examined matching family before the stop, not
necessarily the first (see the counterexample). -/
theorem find_queue_families_amended (fams : List QueueFamily) :
    (∀ k, (find_queue_families fams).graphics_family = some k →
      ∃ qf, fams[k]? = some qf ∧ qf.graphicsBit = true) ∧
    (∀ k, (find_queue_families fams).present_family = some k →
      ∃ qf, fams[k]? = some qf ∧ qf.presentSupport = true) ∧
    ((find_queue_families fams).graphics_family = none →
      ∀ qf ∈ fams, qf.graphicsBit = false) ∧
    ((find_queue_families fams).present_family = none →
      ∀ qf ∈ fams, qf.presentSupport = false) ∧
    (∀ l₁ l₂, fams = l₁ ++ l₂ →
      (∃ qf ∈ l₁, qf.graphicsBit = true) → (∃ qf ∈ l₁, qf.presentSupport = true) →
      find_queue_families fams = find_queue_families l₁) := by
  refine ⟨?_, ?_, ?_, ?_, ?_⟩
  · intro k h
    rcases findQueueFamiliesGo_graphics_sound fams 0 _ k h with h1 | ⟨_, qf, h2, h3⟩
    · exact Option.noConfusion h1
    · exact ⟨qf, by simpa using h2, h3⟩
  · intro k h
    rcases findQueueFamiliesGo_present_sound fams 0 _ k h with h1 | ⟨_, qf, h2, h3⟩
    · exact Option.noConfusion h1
    · exact ⟨qf, by simpa using h2, h3⟩
  · exact fun h => (findQueueFamiliesGo_graphics_none fams 0 _ h).2
  · exact fun h => (findQueueFamiliesGo_present_none fams 0 _ h).2
  · intro l₁ l₂ hsplit hg hp
    subst hsplit
    have hne : l₁ ≠ [] := by
      obtain ⟨qf, hq, _⟩ := hg
      intro h
      rw [h] at hq
      exact List.not_mem_nil qf hq
    exact findQueueFamiliesGo_early_stop l₁ l₂ 0 _ hne (Or.inl hg) (Or.inl hp)

/-- Witness for C7 (amended) on `[graphics-only, present-only, graphics+present]`
followed by a further family: both returned indices point at capable families and
the extra family beyond the stopping prefix does not change the result. -/
theorem find_queue_families_amended_witness :
    (∃ qf, [QueueFamily.mk true false, ⟨false, true⟩][0]? = some qf ∧
      qf.graphicsBit = true) ∧
    find_queue_families ([⟨true, false⟩, ⟨false, true⟩] ++ [⟨true, true⟩]) =
      find_queue_families [⟨true, false⟩, ⟨false, true⟩] := by
  constructor
  · exact (find_queue_families_amended [⟨true, false⟩, ⟨false, true⟩]).1 0 (by decide)
  · exact (find_queue_families_amended
      ([⟨true, false⟩, ⟨false, true⟩] ++ [⟨true, true⟩])).2.2.2.2
      [⟨true, false⟩, ⟨false, true⟩] [⟨true, true⟩] rfl
      ⟨⟨true, false⟩, by decide, rfl⟩ ⟨⟨false, true⟩, by decide, rfl⟩

/-! ## `draw_frame` control flow (vp.m.cpp:2235-2317)

`draw_frame` waits on the slot's in-flight fence, acquires the next image, and then
branches on the acquire result: `VK_ERROR_OUT_OF_DATE_KHR` recreates the swapchain
and returns; any result other than `VK_SUCCESS`/`VK_SUBOPTIMAL_KHR` throws; otherwise
the fence is reset, the command buffer reset and re-recorded, the uniform buffer
updated, the work submitted and presented, and the frame counter advanced.  The host
actions are modelled as an event trace; a throw discards the frame
(`Except.error`). -/

inductive VkResult where
  | success
  | suboptimalKHR
  | errorOutOfDateKHR
  | otherError
  deriving DecidableEq, Repr

inductive FrameEvent where
  | waitFence
  | acquireImage
  | recreateSwapChain
  | resetFence
  | resetCommandBuffer
  | recordCommandBuffer
  | updateUniform
  | submit
  | present
  | clearResizedFlag
  | advanceFrame
  deriving DecidableEq, Repr

/-- The event trace of one `draw_frame` call, given the results of
`vkAcquireNextImageKHR` and `vkQueuePresentKHR` and the `framebuffer_resized` flag. -/
def draw_frame (acquire_result present_result : VkResult)
    (framebuffer_resized : Bool) : Except String (List FrameEvent) :=
  let pre := [FrameEvent.waitFence, FrameEvent.acquireImage]
  if acquire_result = .errorOutOfDateKHR then
    .ok (pre ++ [FrameEvent.recreateSwapChain])
  else if acquire_result ≠ .success ∧ acquire_result ≠ .suboptimalKHR then
    .error "failed to acquire swap chain image"
  else
    let body := pre ++ [FrameEvent.resetFence, FrameEvent.resetCommandBuffer,
      FrameEvent.recordCommandBuffer, FrameEvent.updateUniform, FrameEvent.submit,
      FrameEvent.present]
    if present_result = .errorOutOfDateKHR ∨ present_result = .suboptimalKHR ∨
        framebuffer_resized then
      .ok (body ++ [FrameEvent.clearResizedFlag, FrameEvent.recreateSwapChain,
        FrameEvent.advanceFrame])
    else if present_result ≠ .success then
      .error "failed to present swap chain image!"
    else
      .ok (body ++ [FrameEvent.advanceFrame])

/-- C8: when acquisition reports out-of-date the frame is aborted — the trace is
exactly wait, acquire, recreate, so the fence is never reset and the command buffer
never re-recorded and nothing is submitted; when acquisition reports success or
suboptimal the frame continues and the fence reset and command re-record do occur
(in that order, after the acquire). -/
theorem draw_frame_acquire_handling (present_result : VkResult)
    (framebuffer_resized : Bool) :
    (draw_frame .errorOutOfDateKHR present_result framebuffer_resized =
        .ok [.waitFence, .acquireImage, .recreateSwapChain] ∧
      ∀ evs, draw_frame .errorOutOfDateKHR present_result framebuffer_resized =
          .ok evs →
        FrameEvent.recreateSwapChain ∈ evs ∧ FrameEvent.resetFence ∉ evs ∧
          FrameEvent.recordCommandBuffer ∉ evs ∧ FrameEvent.submit ∉ evs) ∧
    (∀ acquire_result, (acquire_result = .success ∨ acquire_result = .suboptimalKHR) →
      present_result ≠ .otherError →
      ∃ evs, draw_frame acquire_result present_result framebuffer_resized = .ok evs ∧
        FrameEvent.resetFence ∈ evs ∧ FrameEvent.recordCommandBuffer ∈ evs ∧
        FrameEvent.submit ∈ evs) := by
  constructor
  · constructor
    · rfl
    · intro evs h
      obtain rfl := Except.ok.inj h.symm
      decide
  · intro acquire_result hacq hpres
    rcases hacq with rfl | rfl <;>
      cases present_result <;>
      cases framebuffer_resized <;>
      first
      | exact absurd rfl hpres
      | exact ⟨_, rfl, by decide, by decide, by decide⟩

/-- Witness for C8: with a successful acquire, a successful present and no resize,
the trace contains the fence reset, the command re-record and the submission. -/
theorem draw_frame_acquire_handling_witness :
    ∃ evs, draw_frame .success .success false = .ok evs ∧
      FrameEvent.resetFence ∈ evs ∧ FrameEvent.recordCommandBuffer ∈ evs ∧
      FrameEvent.submit ∈ evs :=
  (draw_frame_acquire_handling .success false).2 .success (Or.inl rfl)
    (by decide)

/-! ## Swapchain recreation (vp.m.cpp:1298-1317, 2404-2425, 1663-1685)

`cleanup_swap_chain` destroys, in order: the multisample color image view/image/
memory, the depth image view/image/memory, every framebuffer, every swapchain image
view, and the swapchain.  `recreate_swap_chain` blocks until the framebuffer size is
nonzero, waits for the device to be idle, calls `cleanup_swap_chain`, and then calls
`create_swap_chain`, `create_image_views`, `create_depth_resources` and
`create_framebuffers` — it never calls `create_color_resources`, which is invoked
only once, from `init_vulkan` (vp.m.cpp:1046).  The liveness of each
swapchain-dependent resource category is modelled as a Bool, and the recreation
protocol as the sequence of steps the code performs. -/

structure SwapchainResources where
  colorAttachment : Bool
  depthAttachment : Bool
  framebuffers : Bool
  imageViews : Bool
  swapchain : Bool
  deriving DecidableEq, Repr

/-- `cleanup_swap_chain`: destroys the color attachment, the depth attachment, the
framebuffers, the swapchain image views and the swapchain. -/
def cleanup_swap_chain (s : SwapchainResources) : SwapchainResources :=
  { s with
    colorAttachment := false
    depthAttachment := false
    framebuffers := false
    imageViews := false
    swapchain := false }

inductive RecreateStep where
  | waitFramebufferSizeNonzero
  | deviceWaitIdle
  | cleanupSwapChain
  | createSwapChain
  | createImageViews
  | createColorResources
  | createDepthResources
  | createFramebuffers
  deriving DecidableEq, Repr

/-- The sequence of operations `recreate_swap_chain` performs, in source order. -/
def recreate_swap_chain_steps : List RecreateStep :=
  [.waitFramebufferSizeNonzero, .deviceWaitIdle, .cleanupSwapChain,
   .createSwapChain, .createImageViews, .createDepthResources, .createFramebuffers]

/-- Effect of one recreation step on the resource-liveness state. -/
def applyRecreateStep (s : SwapchainResources) : RecreateStep → SwapchainResources
  | .waitFramebufferSizeNonzero => s
  | .deviceWaitIdle => s
  | .cleanupSwapChain => cleanup_swap_chain s
  | .createSwapChain => { s with swapchain := true }
  | .createImageViews => { s with imageViews := true }
  | .createColorResources => { s with colorAttachment := true }
  | .createDepthResources => { s with depthAttachment := true }
  | .createFramebuffers => { s with framebuffers := true }

/-- `recreate_swap_chain` as a state transformer. -/
def recreate_swap_chain (s : SwapchainResources) : SwapchainResources :=
  recreate_swap_chain_steps.foldl applyRecreateStep s

/-- The fully initialized state after `init_vulkan`: every swapchain-dependent
resource is alive. -/
def initResources : SwapchainResources :=
  { colorAttachment := true, depthAttachment := true, framebuffers := true,
    imageViews := true, swapchain := true }

/-- C2 fails on the code: starting from the fully initialized state, a swapchain
recreation destroys the multisample color attachment in `cleanup_swap_chain` but
never recreates it — `create_color_resources` is not among the recreation steps —
while the swapchain, image views, depth attachment and framebuffers are all
rebuilt (in that order).  The new framebuffers therefore reference a destroyed
color image view, contradicting the claim that every destroyed resource category
is recreated. -/
theorem recreate_swap_chain_misses_color_attachment :
    (cleanup_swap_chain initResources).colorAttachment = false ∧
    (recreate_swap_chain initResources).colorAttachment = false ∧
    RecreateStep.createColorResources ∉ recreate_swap_chain_steps ∧
    (recreate_swap_chain initResources).swapchain = true ∧
    (recreate_swap_chain initResources).imageViews = true ∧
    (recreate_swap_chain initResources).depthAttachment = true ∧
    (recreate_swap_chain initResources).framebuffers = true ∧
    recreate_swap_chain_steps = [.waitFramebufferSizeNonzero, .deviceWaitIdle,
      .cleanupSwapChain, .createSwapChain, .createImageViews, .createDepthResources,
      .createFramebuffers] := by
  decide

/-! ## Frame pacing (vp.m.cpp:2235-2317 `draw_frame`, 2108-2142 `create_sync_objects`)

`create_sync_objects` creates `max_frames_in_flight = 2` in-flight fences, all
pre-signaled (`VK_FENCE_CREATE_SIGNALED_BIT`).  Each `draw_frame` call uses slot
`current_frame_`; it blocks on `vkWaitForFences` for that slot's fence, and on the
success path resets the fence, re-records the slot's command buffer, submits the
buffer with the fence as completion signal and advances `current_frame_` modulo 2;
on the out-of-date path it returns without touching the fence or the counter.
This is modelled as an interleaving of host steps and device-completion steps:
`pending i` counts submissions through slot `i` the device has not completed, and —
as the claim assumes — the only rule that signals a fence is the device completing
that slot's submission. -/

def max_frames_in_flight : Nat := 2

inductive HostPhase where
  | waiting
  | recording
  deriving DecidableEq, Repr

structure FrameLoopState where
  fence : Fin 2 → Bool
  pending : Fin 2 → Nat
  frame : Nat
  phase : HostPhase

/-- `current_frame_`, the slot index `frame_count mod 2`. -/
def slotOf (s : FrameLoopState) : Fin 2 := ⟨s.frame % 2, Nat.mod_lt _ (by omega)⟩

/-- One step of the interleaved host/device execution.
`fencePassAndReset`: the host returns from `vkWaitForFences` on the current slot's
fence, acquisition succeeds, and the host resets the fence and starts re-recording
the slot's command buffer.
`acquireOutOfDate`: the host passes the fence wait but acquisition reports
out-of-date, so the frame is aborted with the fence and counter untouched.
`submit`: the host finishes recording and calls `vkQueueSubmit` with the slot's
fence as completion fence, then advances `current_frame_`.
`deviceComplete`: the device finishes a slot's submitted work and only then signals
that slot's fence. -/
inductive FrameLoopStep : FrameLoopState → FrameLoopState → Prop
  | fencePassAndReset (s : FrameLoopState) (hph : s.phase = .waiting)
      (hf : s.fence (slotOf s) = true) :
      FrameLoopStep s { s with
        fence := Function.update s.fence (slotOf s) false
        phase := .recording }
  | acquireOutOfDate (s : FrameLoopState) (hph : s.phase = .waiting)
      (hf : s.fence (slotOf s) = true) :
      FrameLoopStep s s
  | submit (s : FrameLoopState) (hph : s.phase = .recording) :
      FrameLoopStep s { s with
        pending := Function.update s.pending (slotOf s) (s.pending (slotOf s) + 1)
        frame := s.frame + 1
        phase := .waiting }
  | deviceComplete (s : FrameLoopState) (i : Fin 2) (hp : 1 ≤ s.pending i) :
      FrameLoopStep s { s with
        pending := Function.update s.pending i (s.pending i - 1)
        fence := Function.update s.fence i true }

/-- The state after `create_sync_objects`: both fences signaled, nothing submitted,
frame counter zero. -/
def initFrameLoopState : FrameLoopState :=
  { fence := fun _ => true, pending := fun _ => 0, frame := 0, phase := .waiting }

def ReachableFrameLoop (s : FrameLoopState) : Prop :=
  Relation.ReflTransGen FrameLoopStep initFrameLoopState s

/-- Inductive invariant of the frame loop: each slot has at most one outstanding
submission, a signaled fence means the slot's work is complete, and while the host
is re-recording the current slot that slot has no outstanding work and its fence is
reset. -/
def FrameLoopInv (s : FrameLoopState) : Prop :=
  (∀ i, s.pending i ≤ 1) ∧
  (∀ i, s.fence i = true → s.pending i = 0) ∧
  (s.phase = .recording → s.pending (slotOf s) = 0 ∧ s.fence (slotOf s) = false)

theorem frameLoopInv_init : FrameLoopInv initFrameLoopState := by
  refine ⟨fun i => ?_, fun i _ => rfl, fun h => ?_⟩
  · exact Nat.zero_le 1
  · exact absurd h (by simp [initFrameLoopState])

theorem frameLoopInv_step (s s' : FrameLoopState) (h : FrameLoopStep s s')
    (hs : FrameLoopInv s) : FrameLoopInv s' := by
  obtain ⟨h1, h2, h3⟩ := hs
  cases h with
  | fencePassAndReset hph hf =>
    refine ⟨h1, fun i hi => ?_, fun _ => ?_⟩
    · have hi' : Function.update s.fence (slotOf s) false i = true := hi
      show s.pending i = 0
      by_cases hij : i = slotOf s
      · subst hij
        rw [Function.update_same] at hi'
        exact absurd hi' (by simp)
      · rw [Function.update_noteq hij] at hi'
        exact h2 i hi'
    · refine ⟨h2 _ hf, ?_⟩
      show Function.update s.fence (slotOf s) false (slotOf s) = false
      exact Function.update_same _ _ _
  | acquireOutOfDate hph hf => exact ⟨h1, h2, h3⟩
  | submit hph =>
    obtain ⟨hp0, hf0⟩ := h3 hph
    refine ⟨fun i => ?_, fun i hi => ?_, fun hrec => ?_⟩
    · show Function.update s.pending (slotOf s) (s.pending (slotOf s) + 1) i ≤ 1
      by_cases hij : i = slotOf s
      · subst hij
        rw [Function.update_same, hp0]
      · rw [Function.update_noteq hij]
        exact h1 i
    · have hi' : s.fence i = true := hi
      show Function.update s.pending (slotOf s) (s.pending (slotOf s) + 1) i = 0
      by_cases hij : i = slotOf s
      · subst hij
        rw [hf0] at hi'
        exact absurd hi' (by simp)
      · rw [Function.update_noteq hij]
        exact h2 i hi'
    · exact absurd hrec (by simp)
  | deviceComplete i hp =>
    refine ⟨fun j => ?_, fun j hj => ?_, fun hrec => ?_⟩
    · show Function.update s.pending i (s.pending i - 1) j ≤ 1
      by_cases hij : j = i
      · subst hij
        rw [Function.update_same]
        have := h1 j
        omega
      · rw [Function.update_noteq hij]
        exact h1 j
    · have hj' : Function.update s.fence i true j = true := hj
      show Function.update s.pending i (s.pending i - 1) j = 0
      by_cases hij : j = i
      · subst hij
        rw [Function.update_same]
        have := h1 j
        omega
      · rw [Function.update_noteq hij] at hj' ⊢
        exact h2 j hj'
    · have hrec' : s.phase = HostPhase.recording := hrec
      obtain ⟨hp0, hf0⟩ := h3 hrec'
      have hislot : i ≠ slotOf s := by
        intro hij
        rw [hij, hp0] at hp
        omega
      constructor
      · show Function.update s.pending i (s.pending i - 1) (slotOf s) = 0
        rw [Function.update_noteq (Ne.symm hislot)]
        exact hp0
      · show Function.update s.fence i true (slotOf s) = false
        rw [Function.update_noteq (Ne.symm hislot)]
        exact hf0

theorem frameLoopInv_reachable (s : FrameLoopState) (h : ReachableFrameLoop s) :
    FrameLoopInv s := by
  induction h with
  | refl => exact frameLoopInv_init
  | tail _ hstep ih => exact frameLoopInv_step _ _ hstep ih

/-- C3: with N = 2 frame slots and fences signaled only on device completion, every
reachable state has at most 2 submissions in flight (indeed at most one per slot);
whenever the host is re-recording the current slot's command buffer, that slot has
no outstanding submission (its prior work has completed and its fence had
signaled); and no single further step can push the number of in-flight submissions
beyond 2 — in particular no (N+1)-th submission can ever begin. -/
theorem frames_in_flight_bounded (s : FrameLoopState) (h : ReachableFrameLoop s) :
    (s.pending 0 + s.pending 1 ≤ max_frames_in_flight) ∧
    (∀ i, s.pending i ≤ 1) ∧
    (s.phase = .recording → s.pending (slotOf s) = 0 ∧ s.fence (slotOf s) = false) ∧
    (∀ s', FrameLoopStep s s' →
      s'.pending 0 + s'.pending 1 ≤ max_frames_in_flight) := by
  obtain ⟨h1, h2, h3⟩ := frameLoopInv_reachable s h
  refine ⟨?_, h1, h3, fun s' hstep => ?_⟩
  · have := h1 0
    have := h1 1
    unfold max_frames_in_flight
    omega
  · obtain ⟨h1', _, _⟩ := frameLoopInv_step s s' hstep ⟨h1, h2, h3⟩
    have := h1' 0
    have := h1' 1
    unfold max_frames_in_flight
    omega

/-- Witness for C3 at the initial state (fences pre-signaled, nothing in flight):
the in-flight bound holds there. -/
theorem frames_in_flight_bounded_witness :
    initFrameLoopState.pending 0 + initFrameLoopState.pending 1 ≤
      max_frames_in_flight :=
  (frames_in_flight_bounded initFrameLoopState Relation.ReflTransGen.refl).1

end VP
